import Mathlib

/-!
Shallow embedding of the SoulMap profile plugin (src/main.py) and proofs
about its claims: the sanitizer, the notes merge policy of update_field,
the delete resolver, the summary formatter and the load path.
-/

set_option maxHeartbeats 1000000

namespace SoulMap

/-- Python whitespace: the character class matched by the regex escape for
whitespace (and stripped by the no-argument string strip method): ASCII
whitespace plus the Unicode whitespace code points. -/
def isSpace (c : Char) : Bool :=
  c = ' ' || c = '\t' || c = '\n' || c = '\r' || c = '\x0b' || c = '\x0c' ||
  c = '\x1c' || c = '\x1d' || c = '\x1e' || c = '\x1f' || c = '\x85' || c = '\xa0' ||
  c = ' ' || (' ' ≤ c && c ≤ ' ') || c = ' ' || c = ' ' ||
  c = ' ' || c = ' ' || c = '　'

/-- Strings are modelled as lists of characters. -/
abbrev Str := List Char

/-- Python value.strip(): remove leading and trailing whitespace. -/
def pyStrip (s : Str) : Str :=
  ((s.dropWhile isSpace).reverse.dropWhile isSpace).reverse

/-- re.split on a one-character class: cut the string at every character
satisfying p, keeping the (possibly empty) parts between the cuts. -/
def splitOnPred (p : Char → Bool) : Str → List Str
  | [] => [[]]
  | c :: r =>
    if p c then [] :: splitOnPred p r
    else
      match splitOnPred p r with
      | [] => [[c]]
      | q :: qs => (c :: q) :: qs

/-- The note delimiter class of the source regex, full-width or ASCII
semicolon. -/
def isDelim (c : Char) : Bool := c = '；' || c = ';'

/-- re.split(r'[；;]', s). -/
def splitOnDelims : Str → List Str := splitOnPred isDelim

/-- The list comprehension over re.split(r'[；;]', s) keeping each stripped
part when it is non-empty (src/main.py lines 73, 108, 122, 154). -/
def splitNotes (s : Str) : List Str :=
  (splitOnDelims s).filterMap fun n =>
    if pyStrip n = [] then none else some (pyStrip n)

/-- The incoming-notes comprehension of update_field (line 77): each
stripped part, truncated to its first 20 characters, kept when the
stripped part is non-empty. -/
def newNotesOf (value : Str) : List Str :=
  (splitOnDelims value).filterMap fun n =>
    if pyStrip n = [] then none else some ((pyStrip n).take 20)

/-- The join of note entries on the full-width semicolon (line 84). -/
def joinNotes : List Str → Str
  | [] => []
  | [e] => e
  | e :: l => e ++ '；' :: joinNotes l

/-- Lines 79-81: append each new note to the accumulated list unless an
exactly equal entry is already present. -/
def dedupAppend (notes newNotes : List Str) : List Str :=
  newNotes.foldl (fun acc n => if n ∈ acc then acc else acc ++ [n]) notes

/-- Python notes[-k:] (line 83); for k = 0 this is the whole list. -/
def capLast (k : Nat) (l : List Str) : List Str :=
  if k = 0 then l else l.drop (l.length - k)

/-- Lookup in an insertion-ordered string-keyed map (dict get). -/
def dget {α : Type} (m : List (Str × α)) (k : Str) : Option α :=
  (m.find? fun p => decide (p.1 = k)).map (·.2)

/-- Assignment in an insertion-ordered map: overwrite in place when the key
is present, append otherwise (dict item assignment). -/
def dset {α : Type} : List (Str × α) → Str → α → List (Str × α)
  | [], k, v => [(k, v)]
  | (k', v') :: m, k, v => if k' = k then (k, v) :: m else (k', v') :: dset m k v

/-- Deletion of a key's binding from an insertion-ordered map (dict del). -/
def ddel {α : Type} : List (Str × α) → Str → List (Str × α)
  | [], _ => []
  | (k', v') :: m, k => if k' = k then m else (k', v') :: ddel m k

/-- One user's flat field map. -/
abbrev Profile := List (Str × Str)

/-- The whole user_data mapping. -/
abbrev Store := List (Str × Profile)

/-- Python str.isdigit, restricted to the ASCII decimal digits (the source
accepts any Unicode decimal digit; no claim exercises the difference). -/
def isDigitStr (s : Str) : Bool := !s.isEmpty && s.all (·.isDigit)

/-- int(s) for a string of decimal digits. -/
def toNatStr (s : Str) : Nat := s.foldl (fun n c => n * 10 + (c.toNat - '0'.toNat)) 0

/-- Does the second string occur at the start of the first string. -/
def startsWithStr : Str → Str → Bool
  | _, [] => true
  | [], _ :: _ => false
  | c :: h, d :: p => c = d && startsWithStr h p

/-- The Python substring membership test: pat in hay. -/
def containsSub (hay pat : Str) : Bool :=
  match hay with
  | [] => pat.isEmpty
  | c :: h => startsWithStr (c :: h) pat || containsSub h pat

/-- The (success flag, message) pair a manager operation returns, together
with the store after the call and whether _save_data ran during it. -/
structure OpResult where
  ok : Bool
  msg : Str
  store : Store
  saved : Bool
deriving DecidableEq

/-- The stored-notes parse of update_field (lines 70-75): split when the
existing value is non-empty, the empty list otherwise. -/
def parseNotes (existing : Str) : List Str :=
  if existing ≠ [] then splitNotes existing else []

/-- The notes branch of update_field (lines 69-83): merge the incoming
value's notes into the stored ones, dedup, keep the last maxN. -/
def mergeNotes (maxN : Nat) (existing value : Str) : List Str :=
  capLast maxN (dedupAppend (parseNotes existing) (newNotesOf value))

/-- SoulMapManager.update_field (src/main.py lines 56-90); the wall-clock
timestamp is passed in as now, the profile key as key. -/
def update_field (allowed : List Str) (maxN : Nat) (store : Store)
    (key field value now : Str) : OpResult :=
  if field ∈ allowed then
    let store0 := if (dget store key).isSome then store else dset store key []
    let profile := (dget store0 key).getD []
    let value1 := pyStrip value
    let value2 :=
      if field = "备注".data then
        joinNotes (mergeNotes maxN ((dget profile "备注".data).getD []) value1)
      else value1
    let profile1 := dset (dset profile field value2) "_last_updated".data now
    ⟨true, "已更新 ".data ++ field, dset store0 key profile1, true⟩
  else ⟨false, "字段 '".data ++ field ++ "' 不在允许列表中".data, store, false⟩

/-- SoulMapManager.delete_field (src/main.py lines 92-133). -/
def delete_field (store : Store) (key field now : Str) : OpResult :=
  match dget store key with
  | none => ⟨false, "没有找到你的画像数据".data, store, false⟩
  | some profile =>
    if (dget profile field).isSome then
      let profile1 := dset (ddel profile field) "_last_updated".data now
      ⟨true, "已删除字段 ".data ++ field, dset store key profile1, true⟩
    else if (dget profile "备注".data).isSome && isDigitStr field then
      let n := toNatStr field
      let notes := splitNotes ((dget profile "备注".data).getD [])
      if 1 ≤ n ∧ n ≤ notes.length then
        let deleted := notes.getD (n - 1) []
        let notes1 := notes.eraseIdx (n - 1)
        let profile1 :=
          if notes1 ≠ [] then dset profile "备注".data (joinNotes notes1)
          else ddel profile "备注".data
        let profile2 := dset profile1 "_last_updated".data now
        ⟨true, "已删除备注第".data ++ field ++ "条：".data ++ deleted,
          dset store key profile2, true⟩
      else ⟨false, "备注第".data ++ field ++ "条不存在".data, store, false⟩
    else if (dget profile "备注".data).isSome then
      let notes := splitNotes ((dget profile "备注".data).getD [])
      let notes1 := notes.filter fun nn => !containsSub nn field
      if notes1.length < notes.length then
        let profile1 :=
          if notes1 ≠ [] then dset profile "备注".data (joinNotes notes1)
          else ddel profile "备注".data
        let profile2 := dset profile1 "_last_updated".data now
        ⟨true, "已从备注中删除包含 '".data ++ field ++ "' 的条目".data,
          dset store key profile2, true⟩
      else ⟨false, "未找到字段或备注条目 '".data ++ field ++ "'".data, store, false⟩
    else ⟨false, "未找到字段或备注条目 '".data ++ field ++ "'".data, store, false⟩

/-- sep.join for a one-character separator. -/
def joinSep (sep : Char) : List Str → Str
  | [] => []
  | [e] => e
  | e :: l => e ++ sep :: joinSep sep l

/-- The numbered rendering of note entries (line 155), 1-based. -/
def numberNotes (i : Nat) : List Str → List Str
  | [] => []
  | e :: l => (Nat.toDigits 10 i ++ '.' :: e) :: numberNotes (i + 1) l

/-- The loop body of format_profile_summary (lines 150-158): append one
line when the field is present and non-empty, the notes field rendered as
numbered items. -/
def summaryStep (profile : Profile) (acc : List Str) (field : Str) : List Str :=
  match dget profile field with
  | none => acc
  | some v =>
    if v ≠ [] then
      if field = "备注".data then
        acc ++ ["- 备注：".data ++ joinSep ' ' (numberNotes 1 (splitNotes v))]
      else acc ++ ["- ".data ++ field ++ "：".data ++ v]
    else acc

/-- SoulMapManager.format_profile_summary (src/main.py lines 143-160), at
profile level: the caller passes in the defensively copied profile. -/
def format_profile_summary (allowed : List Str) (profile : Profile) : Str :=
  if profile = [] then "暂无记录".data
  else
    let lines := allowed.foldl (summaryStep profile) []
    if lines ≠ [] then joinSep '\n' lines else "暂无记录".data

/-- Case-insensitive literal matcher; the pattern is given in lowercase. -/
def eatCI : Str → Str → Option Str
  | [], s => some s
  | _ :: _, [] => none
  | p :: ps, c :: cs => if c.toLower = p then eatCI ps cs else none

/-- After the opening bracket of block_pattern: the alternation of the two
marker keywords followed by the colon, case-insensitively. The second
alternative shares the first's prefix, so the match factorizes: the word
profile, then either a colon or the word delete and a colon. -/
def eatMarker (s : Str) : Option Str :=
  match eatCI "profile".data s with
  | none => none
  | some r =>
    match r with
    | ':' :: r1 => some r1
    | _ =>
      match eatCI "delete".data r with
      | none => none
      | some r2 =>
        match r2 with
        | ':' :: r3 => some r3
        | _ => none

/-- The body of a block: everything up to and including the first closing
bracket; no match when no closing bracket remains. -/
def eatBody : Str → Option Str
  | [] => none
  | ']' :: r => some r
  | _ :: r => eatBody r

/-- One attempted match of
block_pattern (line 198) at the start of s; on success returns the rest of
the string after the match, trailing whitespace consumed. -/
def matchBlockAt (s : Str) : Option Str :=
  match s.dropWhile isSpace with
  | '[' :: r =>
    match eatMarker r with
    | none => none
    | some r1 =>
      match eatBody r1 with
      | none => none
      | some r2 => some (r2.dropWhile isSpace)
  | _ => none

/-- block_pattern.sub('', s), scanning left to right and resuming after
each deleted match; the fuel argument bounds the recursion and the string
length is always enough fuel because every match consumes a character. -/
def subBlocksFuel : Nat → Str → Str
  | 0, s => s
  | _ + 1, [] => []
  | fuel + 1, c :: rest =>
    match matchBlockAt (c :: rest) with
    | some r => subBlocksFuel fuel r
    | none => c :: subBlocksFuel fuel rest

/-- block_pattern.sub('', s). -/
def subBlocks (s : Str) : Str := subBlocksFuel s.length s

/-- The sanitizer: block_pattern.sub('', text).strip() (line 330). -/
def sanitize (s : Str) : Str := pyStrip (subBlocks s)

/-- The delete-target separator class of on_llm_resp (line 314). -/
def isTargetSep (c : Char) : Bool :=
  c = ',' || c = '，' || c = ';' || c = '；' || c = '、'

/-- The target comprehension of on_llm_resp (line 314): each stripped part
of the split body, kept when non-empty. -/
def splitTargets (body : Str) : List Str :=
  (splitOnPred isTargetSep body).filterMap fun f =>
    if pyStrip f = [] then none else some (pyStrip f)

/-- Stable insertion after equal keys, modelling Python's stable
sorted(..., key=int, reverse=True) (line 318). -/
def insertDescByNat (x : Str) : List Str → List Str
  | [] => [x]
  | y :: l => if toNatStr x ≤ toNatStr y then y :: insertDescByNat x l else x :: y :: l

/-- Descending stable sort by numeric value. -/
def sortDescByNat (l : List Str) : List Str :=
  l.foldl (fun acc x => insertDescByNat x acc) []

/-- The order in which one delete block's targets are applied
(src/main.py lines 318-322): non-numeric targets first, in submission
order, then numeric targets in descending numeric order. -/
def deleteOrder (fields : List Str) : List Str :=
  (fields.filter fun f => !isDigitStr f) ++ sortDescByNat (fields.filter isDigitStr)

/-- Processing of one delete block's target list by on_llm_resp. -/
def processDeleteTargets (store : Store) (key now : Str) (fields : List Str) : Store :=
  (deleteOrder fields).foldl (fun st f => (delete_field st key f now).store) store

/-- Modelled from the spec: the application order the claim asserts, the
numeric targets in descending order before any non-numeric target. -/
def deleteOrderSpec (fields : List Str) : List Str :=
  sortDescByNat (fields.filter isDigitStr) ++ (fields.filter fun f => !isDigitStr f)

/-- Modelled from the spec: processing of one delete block's targets in the
order the claim asserts. -/
def processDeleteTargetsSpec (store : Store) (key now : Str) (fields : List Str) : Store :=
  (deleteOrderSpec fields).foldl (fun st f => (delete_field st key f now).store) store

/-- The shape of a parsed JSON document. -/
inductive JsonVal where
  | obj (fields : List (Str × JsonVal))
  | arr (elems : List JsonVal)
  | jstr (s : Str)
  | num (n : Int)
  | jbool (b : Bool)
  | null

/-- The observable state of the backing file as _load_data sees it:
missing, unreadable (the caught decode or type errors), or parsed JSON. -/
inductive FileState where
  | missing
  | unreadable
  | parsed (j : JsonVal)

/-- SoulMapManager._load_data (src/main.py lines 34-42): a missing file or
a caught parse error yields the empty mapping; successfully parsed content
is returned as-is, whatever its shape. -/
def loadData : FileState → JsonVal
  | .missing => .obj []
  | .unreadable => .obj []
  | .parsed j => j

/-- Well-formedness of one stored note entry: non-empty, free of the note
delimiters, and not starting with whitespace. -/
def EntryOk (e : Str) : Prop :=
  e ≠ [] ∧ (∀ c ∈ e, isDelim c = false) ∧ ∀ c, e.head? = some c → isSpace c = false

/-- Stores reachable from the empty store by any sequence of update_field
and delete_field calls. -/
inductive Reachable (allowed : List Str) (maxN : Nat) : Store → Prop where
  | empty : Reachable allowed maxN []
  | update {st : Store} (k f v now : Str) :
      Reachable allowed maxN st →
      Reachable allowed maxN (update_field allowed maxN st k f v now).store
  | del {st : Store} (k f now : Str) :
      Reachable allowed maxN st →
      Reachable allowed maxN (delete_field st k f now).store

/-- The notes invariant the code actually maintains: every stored notes
value is a join of at most maxN well-formed entries of at most 20
characters each. -/
def NotesInv (maxN : Nat) (st : Store) : Prop :=
  ∀ e ∈ st, ∀ f ∈ e.2, f.1 = "备注".data →
    ∃ l : List Str, f.2 = joinNotes l ∧ l.length ≤ maxN ∧
      ∀ x ∈ l, EntryOk x ∧ x.length ≤ 20

/-- The notes invariant exactly as the claim states it: every stored notes
value is a join of at most maxN trimmed non-empty entries of at most 20
characters, no two of which are equal after trimming. -/
def claimNotesInv (maxN : Nat) (st : Store) : Prop :=
  ∀ key p, dget st key = some p → ∀ v, dget p "备注".data = some v →
    ∃ l : List Str, v = joinNotes l ∧ l.length ≤ maxN ∧
      (∀ x ∈ l, pyStrip x = x ∧ x ≠ [] ∧ x.length ≤ 20) ∧
      l.Pairwise fun a b => pyStrip a ≠ pyStrip b

/-- Modelled from the spec: one summary line per allowed field, only when
present and non-empty, the notes field rendered as numbered items. -/
def specLine (profile : Profile) (field : Str) : Option Str :=
  match dget profile field with
  | none => none
  | some v =>
    if v ≠ [] then
      some (if field = "备注".data then
              "- 备注：".data ++ joinSep ' ' (numberNotes 1 (splitNotes v))
            else "- ".data ++ field ++ "：".data ++ v)
    else none

/-- Modelled from the spec: the summary rendering of section 4.6, lines in
allow-list order, the fixed sentinel when no line is emitted. -/
def specFormat (allowed : List Str) (profile : Profile) : Str :=
  let lines := allowed.filterMap (specLine profile)
  if lines = [] then "暂无记录".data else joinSep '\n' lines

/-- The stored notes value of a key's profile, when any. -/
def notesValueAt (st : Store) (key : Str) : Option Str :=
  dget ((dget st key).getD []) "备注".data

/-! ### Lemmas about pyStrip -/

theorem head?_dropWhile_no {p : Char → Bool} :
    ∀ {l : Str} {c : Char}, (l.dropWhile p).head? = some c → p c = false := by
  intro l
  induction l with
  | nil => intro c h; simp [List.dropWhile] at h
  | cons a l ih =>
    intro c h
    by_cases ha : p a
    · rw [List.dropWhile_cons_of_pos ha] at h
      exact ih h
    · rw [List.dropWhile_cons_of_neg ha] at h
      simp at h
      subst h
      simpa using ha

theorem pyStrip_eq (s : Str) : pyStrip s = (s.dropWhile isSpace).rdropWhile isSpace := rfl

theorem head?_of_isPrefix {l m : Str} {c : Char} (h : l <+: m) (hl : l.head? = some c) :
    m.head? = some c := by
  obtain ⟨t, rfl⟩ := h
  cases l with
  | nil => simp at hl
  | cons a l => simpa using hl

theorem pyStrip_head {s : Str} {c : Char} (h : (pyStrip s).head? = some c) :
    isSpace c = false := by
  rw [pyStrip_eq] at h
  have hpre := List.rdropWhile_prefix isSpace (s.dropWhile isSpace)
  exact head?_dropWhile_no (head?_of_isPrefix hpre h)

theorem pyStrip_idem (s : Str) : pyStrip (pyStrip s) = pyStrip s := by
  rw [pyStrip_eq, pyStrip_eq]
  have h1 : ((s.dropWhile isSpace).rdropWhile isSpace).dropWhile isSpace
      = (s.dropWhile isSpace).rdropWhile isSpace := by
    rcases hh : ((s.dropWhile isSpace).rdropWhile isSpace).head? with _ | ⟨c⟩
    · rw [List.head?_eq_none_iff] at hh
      rw [hh]
      rfl
    · have hc : isSpace c = false := by
        have hpre := List.rdropWhile_prefix isSpace (s.dropWhile isSpace)
        exact head?_dropWhile_no (head?_of_isPrefix hpre hh)
      rcases he : (s.dropWhile isSpace).rdropWhile isSpace with _ | ⟨a, l⟩
      · rfl
      · rw [he] at hh
        simp at hh
        subst hh
        rw [List.dropWhile_cons_of_neg (by simp [hc])]
  rw [h1, List.rdropWhile_idempotent]

theorem pyStrip_sublist (s : Str) : List.Sublist (pyStrip s) s := by
  rw [pyStrip_eq]
  exact ((List.rdropWhile_prefix isSpace (s.dropWhile isSpace)).sublist).trans
    ((List.dropWhile_suffix isSpace).sublist)

theorem pyStrip_length_le (s : Str) : (pyStrip s).length ≤ s.length :=
  (pyStrip_sublist s).length_le

theorem pyStrip_subset {s : Str} {c : Char} (h : c ∈ pyStrip s) : c ∈ s :=
  (pyStrip_sublist s).subset h

theorem pyStrip_ne_nil {e : Str} (h1 : e ≠ [])
    (h2 : ∀ c, e.head? = some c → isSpace c = false) : pyStrip e ≠ [] := by
  rcases e with _ | ⟨a, l⟩
  · exact absurd rfl h1
  · have ha : isSpace a = false := h2 a rfl
    rw [pyStrip_eq, List.dropWhile_cons_of_neg (by simp [ha])]
    intro hnil
    rw [List.rdropWhile_eq_nil_iff] at hnil
    have := hnil a (by simp)
    rw [ha] at this
    simp at this

/-! ### Lemmas about splitting and joining note entries -/

theorem splitOnPred_cons (p : Char → Bool) (c : Char) (r : Str) :
    splitOnPred p (c :: r) =
      if p c then [] :: splitOnPred p r
      else
        match splitOnPred p r with
        | [] => [[c]]
        | q :: qs => (c :: q) :: qs := rfl

theorem mem_splitOnPred_no {p : Char → Bool} :
    ∀ {s part : Str}, part ∈ splitOnPred p s → ∀ c ∈ part, p c = false := by
  intro s
  induction s with
  | nil =>
    intro part h c hc
    simp [splitOnPred] at h
    subst h
    simp at hc
  | cons a r ih =>
    intro part h c hc
    rw [splitOnPred_cons] at h
    by_cases hp : p a
    · rw [if_pos hp] at h
      rcases List.mem_cons.mp h with h1 | h1
      · subst h1; simp at hc
      · exact ih h1 c hc
    · rw [if_neg hp] at h
      rcases hq : splitOnPred p r with _ | ⟨q, qs⟩
      · rw [hq] at h
        simp at h
        subst h
        simp at hc
        subst hc
        simpa using hp
      · rw [hq] at h
        rcases List.mem_cons.mp h with h1 | h1
        · subst h1
          rcases List.mem_cons.mp hc with h2 | h2
          · subst h2; simpa using hp
          · exact ih (by rw [hq]; exact List.mem_cons_self q qs) c h2
        · exact ih (by rw [hq]; exact List.mem_cons_of_mem q h1) c hc

theorem splitOnPred_no_delim {p : Char → Bool} :
    ∀ {l : Str}, (∀ c ∈ l, p c = false) → splitOnPred p l = [l] := by
  intro l
  induction l with
  | nil => intro _; rfl
  | cons a r ih =>
    intro h
    have ha : p a = false := h a (by simp)
    rw [splitOnPred_cons, if_neg (by simp [ha]), ih fun c hc => h c (by simp [hc])]

theorem splitOnPred_append {p : Char → Bool} :
    ∀ {l : Str}, (∀ c ∈ l, p c = false) → ∀ {c : Char}, p c = true → ∀ (r : Str),
      splitOnPred p (l ++ c :: r) = l :: splitOnPred p r := by
  intro l
  induction l with
  | nil =>
    intro _ c hc r
    simp [splitOnPred_cons, hc]
  | cons a l ih =>
    intro hl c hc r
    have ha : p a = false := hl a (by simp)
    have ih' := ih (fun x hx => hl x (by simp [hx])) hc r
    rw [List.cons_append, splitOnPred_cons, if_neg (by simp [ha]), ih']

theorem joinNotes_cons (e : Str) {l : List Str} (h : l ≠ []) :
    joinNotes (e :: l) = e ++ '；' :: joinNotes l := by
  cases l with
  | nil => exact absurd rfl h
  | cons e' l' => rfl

theorem splitNotes_mem_ok {s e : Str} (h : e ∈ splitNotes s) : EntryOk e ∧ pyStrip e = e := by
  rw [splitNotes, List.mem_filterMap] at h
  obtain ⟨part, hpart, he⟩ := h
  by_cases ht : pyStrip part = []
  · simp [ht] at he
  · rw [if_neg ht] at he
    simp at he
    subst he
    refine ⟨⟨ht, ?_, ?_⟩, pyStrip_idem part⟩
    · intro c hc
      exact mem_splitOnPred_no hpart c (pyStrip_subset hc)
    · intro c hc
      exact pyStrip_head hc

theorem newNotesOf_mem_ok {v e : Str} (h : e ∈ newNotesOf v) : EntryOk e ∧ e.length ≤ 20 := by
  rw [newNotesOf, List.mem_filterMap] at h
  obtain ⟨part, hpart, he⟩ := h
  by_cases ht : pyStrip part = []
  · simp [ht] at he
  · rw [if_neg ht] at he
    simp at he
    subst he
    refine ⟨⟨?_, ?_, ?_⟩, ?_⟩
    · rcases hq : pyStrip part with _ | ⟨a, q⟩
      · exact absurd hq ht
      · simp [hq]
    · intro c hc
      exact mem_splitOnPred_no hpart c (pyStrip_subset (List.mem_of_mem_take hc))
    · intro c hc
      rcases hq : pyStrip part with _ | ⟨a, q⟩
      · exact absurd hq ht
      · rw [hq] at hc
        simp at hc
        subst hc
        exact pyStrip_head (by rw [hq]; rfl)
    · rw [List.length_take]
      exact min_le_left _ _

theorem splitNotes_append {e : Str} (hdelim : ∀ c ∈ e, isDelim c = false)
    (hne : pyStrip e ≠ []) (r : Str) :
    splitNotes (e ++ '；' :: r) = pyStrip e :: splitNotes r := by
  simp only [splitNotes, splitOnDelims]
  rw [splitOnPred_append hdelim (by simp [isDelim]) r, List.filterMap_cons]
  simp [hne]

theorem splitNotes_no_delim {e : Str} (hdelim : ∀ c ∈ e, isDelim c = false)
    (hne : pyStrip e ≠ []) : splitNotes e = [pyStrip e] := by
  simp only [splitNotes, splitOnDelims]
  rw [splitOnPred_no_delim hdelim]
  simp [hne]

theorem pyStrip_ne_nil_of_entryOk {e : Str} (h : EntryOk e) : pyStrip e ≠ [] :=
  pyStrip_ne_nil h.1 h.2.2

theorem splitNotes_joinNotes : ∀ {l : List Str}, (∀ e ∈ l, EntryOk e) →
    splitNotes (joinNotes l) = l.map pyStrip := by
  intro l
  induction l with
  | nil => intro _; rfl
  | cons e l ih =>
    intro h
    have he : EntryOk e := h e (by simp)
    have hne : pyStrip e ≠ [] := pyStrip_ne_nil_of_entryOk he
    cases l with
    | nil =>
      show splitNotes e = [pyStrip e]
      exact splitNotes_no_delim he.2.1 hne
    | cons e' l' =>
      have ih' := ih fun x hx => h x (by simp [hx])
      rw [joinNotes_cons e (by simp), splitNotes_append he.2.1 hne, ih']
      simp

theorem splitNotes_joinNotes_fixed {l : List Str} (h : ∀ e ∈ l, EntryOk e)
    (hfix : ∀ e ∈ l, pyStrip e = e) : splitNotes (joinNotes l) = l := by
  rw [splitNotes_joinNotes h]
  induction l with
  | nil => rfl
  | cons e l ih =>
    rw [List.map_cons, hfix e (by simp),
      ih (fun x hx => h x (by simp [hx])) fun x hx => hfix x (by simp [hx])]

theorem joinNotes_ne_nil : ∀ {l : List Str}, l ≠ [] → (∀ e ∈ l, e ≠ []) →
    joinNotes l ≠ [] := by
  intro l h0 h
  cases l with
  | nil => exact absurd rfl h0
  | cons e l' =>
    cases l' with
    | nil => exact h e (by simp)
    | cons e' l'' =>
      rw [joinNotes_cons e (by simp)]
      simp

theorem count_joinNotes_ge : ∀ {l : List Str}, l.length ≤ (joinNotes l).count '；' + 1 := by
  intro l
  induction l with
  | nil => simp
  | cons e l ih =>
    cases l with
    | nil => simp [joinNotes]
    | cons e' l' =>
      have h1 : ('；' :: joinNotes (e' :: l')).count '；'
          = (joinNotes (e' :: l')).count '；' + 1 := by
        simp [List.count_cons]
      rw [joinNotes_cons e (by simp), List.count_append, h1]
      simp only [List.length_cons] at ih ⊢
      omega

theorem count_joinNotes_pair (e1 e2 : Str) :
    (joinNotes [e1, e2]).count '；' = e1.count '；' + e2.count '；' + 1 := by
  rw [joinNotes_cons e1 (by simp), List.count_append]
  have h1 : ('；' :: joinNotes [e2]).count '；' = (joinNotes [e2]).count '；' + 1 := by
    simp [List.count_cons]
  rw [h1]
  show e1.count '；' + ((joinNotes [e2]).count '；' + 1) = _
  have : joinNotes [e2] = e2 := rfl
  rw [this]
  omega

theorem takeWhile_no_delim {e1 : Str} :
    (∀ c ∈ e1, c ≠ '；') → ∀ (e2 : Str),
      (e1 ++ '；' :: e2).takeWhile (fun c => !decide (c = '；')) = e1 := by
  induction e1 with
  | nil => intro _ e2; simp [List.takeWhile_cons]
  | cons a l ih =>
    intro h e2
    have ha : a ≠ '；' := h a (by simp)
    rw [List.cons_append, List.takeWhile_cons]
    simp only [ha, decide_False, Bool.not_false, if_true]
    rw [ih (fun c hc => h c (by simp [hc])) e2]

/-! ### Lemmas about the ordered-map operations -/

theorem dget_cons {α : Type} (p : Str × α) (m : List (Str × α)) (k : Str) :
    dget (p :: m) k = if p.1 = k then some p.2 else dget m k := by
  by_cases h : p.1 = k
  · simp [dget, List.find?_cons_of_pos, h]
  · rw [if_neg h, dget, List.find?_cons_of_neg _ (by simp [h])]
    rfl

theorem dset_cons_eq {α : Type} (k : Str) (va v : α) (m : List (Str × α)) :
    dset ((k, va) :: m) k v = (k, v) :: m := by
  simp [dset]

theorem dset_cons_ne {α : Type} {ka k : Str} (h : ka ≠ k) (va : α)
    (m : List (Str × α)) (v : α) :
    dset ((ka, va) :: m) k v = (ka, va) :: dset m k v := by
  simp [dset, h]

theorem ddel_cons_eq {α : Type} (k : Str) (va : α) (m : List (Str × α)) :
    ddel ((k, va) :: m) k = m := by
  simp [ddel]

theorem ddel_cons_ne {α : Type} {ka k : Str} (h : ka ≠ k) (va : α)
    (m : List (Str × α)) :
    ddel ((ka, va) :: m) k = (ka, va) :: ddel m k := by
  simp [ddel, h]

theorem dget_dset_self {α : Type} :
    ∀ (m : List (Str × α)) (k : Str) (v : α), dget (dset m k v) k = some v := by
  intro m k v
  induction m with
  | nil =>
    rw [show dset ([] : List (Str × α)) k v = [(k, v)] from rfl, dget_cons]
    simp
  | cons p m ih =>
    obtain ⟨ka, va⟩ := p
    by_cases h : ka = k
    · subst h
      rw [dset_cons_eq, dget_cons]
      simp
    · rw [dset_cons_ne h, dget_cons, if_neg h, ih]

theorem dget_dset_ne {α : Type} :
    ∀ (m : List (Str × α)) {k k' : Str}, k' ≠ k → ∀ (v : α),
      dget (dset m k v) k' = dget m k' := by
  intro m k k' hne v
  induction m with
  | nil =>
    rw [show dset ([] : List (Str × α)) k v = [(k, v)] from rfl, dget_cons,
      if_neg (by simpa using fun h => hne h.symm)]
  | cons p m ih =>
    obtain ⟨ka, va⟩ := p
    by_cases h : ka = k
    · subst h
      rw [dset_cons_eq, dget_cons, dget_cons]
      simp only []
      rw [if_neg (by simpa using fun h => hne h.symm),
        if_neg (by simpa using fun h => hne h.symm)]
    · rw [dset_cons_ne h, dget_cons, dget_cons, ih]

theorem dget_ddel_ne {α : Type} :
    ∀ (m : List (Str × α)) {k k' : Str}, k' ≠ k → dget (ddel m k) k' = dget m k' := by
  intro m k k' hne
  induction m with
  | nil => rfl
  | cons p m ih =>
    obtain ⟨ka, va⟩ := p
    by_cases h : ka = k
    · subst h
      rw [ddel_cons_eq, dget_cons, if_neg (by simpa using fun h => hne h.symm)]
    · rw [ddel_cons_ne h, dget_cons, dget_cons, ih]

theorem mem_dset {α : Type} :
    ∀ {m : List (Str × α)} {k : Str} {v : α} {x : Str × α},
      x ∈ dset m k v → x ∈ m ∨ x = (k, v) := by
  intro m
  induction m with
  | nil =>
    intro k v x h
    rw [show dset ([] : List (Str × α)) k v = [(k, v)] from rfl] at h
    simp at h
    exact Or.inr h
  | cons p m ih =>
    intro k v x h
    obtain ⟨ka, va⟩ := p
    by_cases hk : ka = k
    · subst hk
      rw [dset_cons_eq] at h
      rcases List.mem_cons.mp h with h1 | h1
      · exact Or.inr h1
      · exact Or.inl (List.mem_cons_of_mem _ h1)
    · rw [dset_cons_ne hk] at h
      rcases List.mem_cons.mp h with h1 | h1
      · exact Or.inl (by simp [h1])
      · rcases ih h1 with h2 | h2
        · exact Or.inl (List.mem_cons_of_mem _ h2)
        · exact Or.inr h2

theorem ddel_sublist {α : Type} :
    ∀ (m : List (Str × α)) (k : Str), List.Sublist (ddel m k) m := by
  intro m k
  induction m with
  | nil => simp [ddel]
  | cons p m ih =>
    obtain ⟨ka, va⟩ := p
    by_cases h : ka = k
    · subst h
      rw [ddel_cons_eq]
      exact List.sublist_cons_self _ _
    · rw [ddel_cons_ne h]
      exact List.Sublist.cons₂ _ ih

theorem mem_ddel {α : Type} {m : List (Str × α)} {k : Str} {x : Str × α}
    (h : x ∈ ddel m k) : x ∈ m :=
  (ddel_sublist m k).subset h

theorem dget_mem {α : Type} {m : List (Str × α)} {k : Str} {v : α}
    (h : dget m k = some v) : (k, v) ∈ m := by
  rw [dget] at h
  rcases hf : m.find? (fun p => decide (p.1 = k)) with _ | ⟨p⟩
  · rw [hf] at h; simp at h
  · rw [hf] at h
    simp at h
    have hp := List.find?_some hf
    have hm := List.mem_of_find?_eq_some hf
    obtain ⟨k', v'⟩ := p
    simp at hp h
    subst hp
    subst h
    exact hm

theorem dget_eq_none {α : Type} :
    ∀ {m : List (Str × α)} {k : Str}, k ∉ m.map Prod.fst → dget m k = none := by
  intro m
  induction m with
  | nil => intro k _; rfl
  | cons p m ih =>
    intro k h
    obtain ⟨ka, va⟩ := p
    simp only [List.map_cons, List.mem_cons, not_or] at h
    rw [dget_cons, if_neg (by simpa using fun he => h.1 he.symm)]
    exact ih h.2

theorem keys_dset_subset {α : Type} {m : List (Str × α)} {k : Str} {v : α} {x : Str}
    (h : x ∈ (dset m k v).map Prod.fst) : x ∈ m.map Prod.fst ∨ x = k := by
  simp only [List.mem_map] at h
  obtain ⟨b, hb, hfst⟩ := h
  rcases mem_dset hb with h1 | h1
  · exact Or.inl (List.mem_map.mpr ⟨b, h1, hfst⟩)
  · subst h1
    exact Or.inr hfst.symm

theorem nodup_keys_dset {α : Type} :
    ∀ {m : List (Str × α)}, (m.map Prod.fst).Nodup → ∀ (k : Str) (v : α),
      ((dset m k v).map Prod.fst).Nodup := by
  intro m
  induction m with
  | nil =>
    intro _ k v
    rw [show dset ([] : List (Str × α)) k v = [(k, v)] from rfl]
    simp
  | cons p m ih =>
    intro h k v
    obtain ⟨ka, va⟩ := p
    simp only [List.map_cons, List.nodup_cons] at h
    by_cases hk : ka = k
    · subst hk
      rw [dset_cons_eq]
      simp only [List.map_cons, List.nodup_cons]
      exact h
    · rw [dset_cons_ne hk]
      simp only [List.map_cons, List.nodup_cons]
      refine ⟨?_, ih h.2 k v⟩
      intro hmem
      rcases keys_dset_subset hmem with h1 | h1
      · exact h.1 h1
      · exact hk h1

theorem nodup_keys_ddel {α : Type} {m : List (Str × α)}
    (h : (m.map Prod.fst).Nodup) (k : Str) : ((ddel m k).map Prod.fst).Nodup :=
  ((ddel_sublist m k).map Prod.fst).nodup h

theorem dget_ddel_self {α : Type} :
    ∀ {m : List (Str × α)}, (m.map Prod.fst).Nodup → ∀ (k : Str),
      dget (ddel m k) k = none := by
  intro m
  induction m with
  | nil => intro _ k; rfl
  | cons p m ih =>
    intro h k
    obtain ⟨ka, va⟩ := p
    simp only [List.map_cons, List.nodup_cons] at h
    by_cases hk : ka = k
    · subst hk
      rw [ddel_cons_eq]
      exact dget_eq_none h.1
    · rw [ddel_cons_ne hk, dget_cons, if_neg (by simpa using hk)]
      exact ih h.2 k

/-! ### Lemmas about dedupAppend and capLast -/

theorem dedupAppend_mem :
    ∀ {b a : List Str} {x : Str}, x ∈ dedupAppend a b → x ∈ a ∨ x ∈ b := by
  intro b
  induction b with
  | nil => intro a x h; exact Or.inl h
  | cons n b ih =>
    intro a x h
    rw [dedupAppend, List.foldl_cons] at h
    rcases ih h with h1 | h1
    · by_cases hn : n ∈ a
      · rw [if_pos hn] at h1
        exact Or.inl h1
      · rw [if_neg hn] at h1
        rcases List.mem_append.mp h1 with h2 | h2
        · exact Or.inl h2
        · simp at h2
          exact Or.inr (by simp [h2])
    · exact Or.inr (List.mem_cons_of_mem _ h1)

theorem mem_dedupAppend_left :
    ∀ {b a : List Str} {x : Str}, x ∈ a → x ∈ dedupAppend a b := by
  intro b
  induction b with
  | nil => intro a x h; exact h
  | cons n b ih =>
    intro a x h
    rw [dedupAppend, List.foldl_cons]
    by_cases hn : n ∈ a
    · rw [if_pos hn]
      exact ih h
    · rw [if_neg hn]
      exact ih (List.mem_append.mpr (Or.inl h))

theorem mem_dedupAppend_right :
    ∀ {b a : List Str} {x : Str}, x ∈ b → x ∈ dedupAppend a b := by
  intro b
  induction b with
  | nil => intro a x h; simp at h
  | cons n b ih =>
    intro a x h
    rw [dedupAppend, List.foldl_cons]
    rcases List.mem_cons.mp h with h1 | h1
    · subst h1
      by_cases hn : x ∈ a
      · rw [if_pos hn]
        exact mem_dedupAppend_left hn
      · rw [if_neg hn]
        exact mem_dedupAppend_left (by simp)
    · by_cases hn : n ∈ a
      · rw [if_pos hn]; exact ih h1
      · rw [if_neg hn]; exact ih h1

theorem dedupAppend_eq_of_subset :
    ∀ {b a : List Str}, (∀ x ∈ b, x ∈ a) → dedupAppend a b = a := by
  intro b
  induction b with
  | nil => intro a _; rfl
  | cons n b ih =>
    intro a h
    rw [dedupAppend, List.foldl_cons, if_pos (h n (by simp))]
    exact ih fun x hx => h x (by simp [hx])

theorem capLast_sublist (k : Nat) (l : List Str) : List.Sublist (capLast k l) l := by
  rw [capLast]
  split
  · exact List.Sublist.refl l
  · exact List.drop_sublist _ l

theorem capLast_length {k : Nat} (hk : 1 ≤ k) (l : List Str) :
    (capLast k l).length ≤ k := by
  rw [capLast, if_neg (by omega)]
  rw [List.length_drop]
  omega

theorem capLast_of_le {k : Nat} {l : List Str} (h : l.length ≤ k) : capLast k l = l := by
  rw [capLast]
  split
  · rfl
  · rw [Nat.sub_eq_zero_of_le h, List.drop_zero]

/-! ### Claim C6: disallowed fields are rejected without any mutation -/

/-- C6: for every field name not in the configured allow-list and every
value, update_field returns the field-not-allowed failure and leaves the
store completely unchanged: no profile is created or modified, nothing is
stamped, and _save_data does not run. -/
theorem claim6_prop (allowed : List Str) (maxN : Nat) (store : Store)
    (key field value now : Str) (h : field ∉ allowed) :
    update_field allowed maxN store key field value now =
      ⟨false, "字段 '".data ++ field ++ "' 不在允许列表中".data, store, false⟩ := by
  rw [update_field, if_neg h]

theorem claim6_witness :
    "职业".data ∉ ["昵称".data, "备注".data] ∧
    update_field ["昵称".data, "备注".data] 5 [] "u".data "职业".data "码农".data "T".data =
      ⟨false, "字段 '".data ++ "职业".data ++ "' 不在允许列表中".data, [], false⟩ :=
  ⟨by decide,
    claim6_prop ["昵称".data, "备注".data] 5 [] "u".data "职业".data "码农".data "T".data
      (by decide)⟩

/-! ### Claim C10: an allowed non-notes field accepts the empty value -/

/-- C10: when update_field is called with an allowed non-notes field (the
reserved bookkeeping key aside, which the data model keeps out of the
allow-list) and a value that trims to the empty string, the write is not
skipped: the empty string is stored as the field's value, the timestamp is
stamped, and the store is persisted. -/
theorem claim10_prop (allowed : List Str) (maxN : Nat) (store : Store)
    (key field value now : Str) (h1 : field ∈ allowed) (h2 : field ≠ "备注".data)
    (h3 : field ≠ "_last_updated".data) (h4 : pyStrip value = []) :
    (update_field allowed maxN store key field value now).ok = true ∧
    (update_field allowed maxN store key field value now).saved = true ∧
    dget ((dget (update_field allowed maxN store key field value now).store key).getD [])
      field = some [] ∧
    dget ((dget (update_field allowed maxN store key field value now).store key).getD [])
      "_last_updated".data = some now := by
  simp only [update_field, if_pos h1]
  refine ⟨trivial, trivial, ?_, ?_⟩
  · rw [dget_dset_self, Option.getD_some, dget_dset_ne _ h3, dget_dset_self,
      if_neg h2, h4]
  · rw [dget_dset_self, Option.getD_some, dget_dset_self]

theorem claim10_witness :
    "昵称".data ∈ ["昵称".data, "备注".data] ∧ "昵称".data ≠ "备注".data ∧
    "昵称".data ≠ "_last_updated".data ∧ pyStrip "  ".data = [] ∧
    dget ((dget (update_field ["昵称".data, "备注".data] 5
        [("u".data, [("昵称".data, "小明".data)])]
        "u".data "昵称".data "  ".data "T".data).store "u".data).getD [])
      "昵称".data = some [] :=
  ⟨by decide, by decide, by decide, by decide,
    (claim10_prop ["昵称".data, "备注".data] 5
      [("u".data, [("昵称".data, "小明".data)])] "u".data "昵称".data "  ".data "T".data
      (by decide) (by decide) (by decide) (by decide)).2.2.1⟩

/-! ### Claim C4: the load path -/

/-- C4 counterexample: content that parses to a non-mapping JSON value (an
empty array) is returned as-is by _load_data, not normalized to the empty
store, refuting the claim that a wrong-shape document loads as the empty
store. -/
theorem claim4_counterexample :
    loadData (.parsed (.arr [])) ≠ JsonVal.obj [] := fun h => JsonVal.noConfusion h

/-- C4 (amended): _load_data returns the empty mapping when the backing
file is missing or its content raises one of the caught parse errors, and
returns successfully parsed content unchanged, whatever its shape — a
wrong-shape document is not normalized to the empty store. -/
theorem claim4_prop :
    loadData .missing = JsonVal.obj [] ∧ loadData .unreadable = JsonVal.obj [] ∧
    ∀ j : JsonVal, loadData (.parsed j) = j :=
  ⟨rfl, rfl, fun _ => rfl⟩

/-! ### Claim C1: idempotence of the sanitizer -/

/-- C1 counterexample: stripping can splice the surroundings of a removed
block into a new directive block, so the sanitizer is not idempotent: on
this input the first pass leaves a well-formed block that the second pass
removes. -/
theorem claim1_counterexample :
    sanitize (sanitize "[Pro[Profile:]file:]".data) ≠
      sanitize "[Pro[Profile:]file:]".data := by decide

/-- C1 (amended): the sanitizer is idempotent on every text whose stripped
form contains no further directive block, i.e. whenever re-substituting on
the stripped text removes nothing; texts where block removal splices a new
block out of the surrounding characters escape this and are the only
failures. -/
theorem claim1_prop (t : Str) (h : subBlocks (sanitize t) = sanitize t) :
    sanitize (sanitize t) = sanitize t := by
  show pyStrip (subBlocks (sanitize t)) = sanitize t
  rw [h]
  show pyStrip (pyStrip (subBlocks t)) = sanitize t
  rw [pyStrip_idem]
  rfl

theorem claim1_witness :
    subBlocks (sanitize "hello [Profile: 昵称=小明] there".data) =
      sanitize "hello [Profile: 昵称=小明] there".data ∧
    sanitize (sanitize "hello [Profile: 昵称=小明] there".data) =
      sanitize "hello [Profile: 昵称=小明] there".data :=
  ⟨by decide, claim1_prop "hello [Profile: 昵称=小明] there".data (by decide)⟩

/-! ### Claim C7: failing single-target deletes change nothing -/

/-- C7: whenever a single-target delete fails — the profile key is absent
from the store, a purely numeric target (naming no present field, per the
resolver's precedence) is an out-of-range 1-based note index, or a
non-numeric target matches no present field name exactly and is a
substring of no note entry — delete_field reports a not-found failure and
leaves the store unchanged without persisting; in particular an
out-of-range numeric target fails rather than falling through to fuzzy
substring matching. -/
theorem claim7_prop (store : Store) (key field now : Str)
    (h : dget store key = none ∨
      ∃ p, dget store key = some p ∧ dget p field = none ∧
        ((isDigitStr field = true ∧ ∃ v, dget p "备注".data = some v ∧
            ¬(1 ≤ toNatStr field ∧ toNatStr field ≤ (splitNotes v).length)) ∨
         (isDigitStr field = false ∧
           ∀ e ∈ splitNotes ((dget p "备注".data).getD []), containsSub e field = false))) :
    (delete_field store key field now).store = store ∧
    (delete_field store key field now).ok = false ∧
    (delete_field store key field now).saved = false := by
  rcases h with hnone | ⟨p, hp, hfield, hcase⟩
  · simp only [delete_field, hnone]
    exact ⟨by trivial, by trivial, by trivial⟩
  · rcases hcase with ⟨hd, v, hv, hrange⟩ | ⟨hd, hsub⟩
    · have hres : delete_field store key field now =
          ⟨false, "备注第".data ++ field ++ "条不存在".data, store, false⟩ := by
        simp only [delete_field, hp, hfield, hv, hd]
        simp [hrange]
      rw [hres]
      exact ⟨rfl, rfl, rfl⟩
    · rcases hbz : dget p "备注".data with _ | ⟨v⟩
      · have hres : delete_field store key field now =
            ⟨false, "未找到字段或备注条目 '".data ++ field ++ "'".data, store, false⟩ := by
          simp only [delete_field, hp, hfield, hbz, hd]
          simp
        rw [hres]
        exact ⟨rfl, rfl, rfl⟩
      · rw [hbz] at hsub
        have hfil : (splitNotes v).filter (fun nn => !containsSub nn field)
            = splitNotes v := by
          apply List.filter_eq_self.mpr
          intro a ha
          have := hsub a (by simpa using ha)
          simp [this]
        have hres : delete_field store key field now =
            ⟨false, "未找到字段或备注条目 '".data ++ field ++ "'".data, store, false⟩ := by
          simp only [delete_field, hp, hfield, hbz, hd]
          simp [hfil]
        rw [hres]
        exact ⟨rfl, rfl, rfl⟩

theorem claim7_witness :
    (delete_field [("u".data, [("备注".data, "a3".data)])] "u".data "3".data "T".data).store
      = [("u".data, [("备注".data, "a3".data)])] ∧
    (delete_field [("u".data, [("备注".data, "a3".data)])] "u".data "3".data "T".data).ok
      = false ∧
    (delete_field [("u".data, [("备注".data, "a3".data)])] "u".data "3".data "T".data).saved
      = false :=
  claim7_prop [("u".data, [("备注".data, "a3".data)])] "u".data "3".data "T".data
    (Or.inr ⟨[("备注".data, "a3".data)], by decide, by decide,
      Or.inl ⟨by decide, "a3".data, by decide, by decide⟩⟩)

/-! ### Claim C9: the summary formatter renders the spec's listing -/

theorem summaryStep_eq (profile : Profile) (acc : List Str) (field : Str) :
    summaryStep profile acc field = acc ++ (specLine profile field).toList := by
  unfold summaryStep specLine
  rcases hdv : dget profile field with _ | v
  · simp
  · by_cases hv : v = []
    · simp [hv]
    · by_cases hb : field = "备注".data
      · simp [hv, hb]
      · simp [hv, hb]

theorem foldl_summaryStep (profile : Profile) :
    ∀ (allowed init : List Str),
      allowed.foldl (summaryStep profile) init
        = init ++ allowed.filterMap (specLine profile) := by
  intro allowed
  induction allowed with
  | nil => intro init; simp
  | cons f fs ih =>
    intro init
    rw [List.foldl_cons, ih, summaryStep_eq]
    rcases hf : specLine profile f with _ | line
    · simp [List.filterMap_cons, hf]
    · simp [List.filterMap_cons, hf]

/-- C9: format_profile_summary renders exactly the rendering the spec
describes: one line per allow-listed field that is present and non-empty,
in configured allow-list order (the stored profile's own insertion order
is never consulted), the notes field as 1-based numbered space-separated
sub-items, and the fixed no-data sentinel whenever no line is emitted
(in particular on an empty profile). -/
theorem claim9_prop : ∀ (allowed : List Str) (profile : Profile),
    format_profile_summary allowed profile = specFormat allowed profile := by
  intro allowed profile
  by_cases hp : profile = []
  · subst hp
    rw [format_profile_summary, if_pos rfl, specFormat]
    have hnil : allowed.filterMap (specLine []) = [] :=
      List.filterMap_eq_nil_iff.mpr fun f _ => rfl
    simp [hnil]
  · rw [format_profile_summary, if_neg hp, specFormat]
    simp only [foldl_summaryStep, List.nil_append]
    by_cases hl : allowed.filterMap (specLine profile) = []
    · simp [hl]
    · simp [hl]

/-! ### Claim C8: exhausting the notes leaves the field absent -/

theorem eraseIdx_mem_ok {v : Str} {x : Str} {i : Nat}
    (h : x ∈ (splitNotes v).eraseIdx i) : EntryOk x ∧ pyStrip x = x :=
  splitNotes_mem_ok ((List.eraseIdx_sublist (splitNotes v) i).subset h)

/-- C8: deleting a note entry by a valid 1-based index leaves the notes
field absent whenever the entry was the last one remaining (length one),
and otherwise present with a non-empty value - never the empty string;
likewise a fuzzy substring delete that matches every remaining note entry
removes the notes field entirely. -/
theorem claim8_prop (store : Store) (key field now : Str) (p : Profile) (v : Str)
    (hkey : dget store key = some p) (hnodup : (p.map Prod.fst).Nodup)
    (hfield : dget p field = none) (hbz : dget p "备注".data = some v) :
    (isDigitStr field = true →
      1 ≤ toNatStr field → toNatStr field ≤ (splitNotes v).length →
      (((splitNotes v).length = 1 →
        notesValueAt (delete_field store key field now).store key = none) ∧
      ∀ w, notesValueAt (delete_field store key field now).store key = some w → w ≠ [])) ∧
    (isDigitStr field = false → splitNotes v ≠ [] →
      (∀ e ∈ splitNotes v, containsSub e field = true) →
      notesValueAt (delete_field store key field now).store key = none) := by
  have hlu : ("备注".data : Str) ≠ "_last_updated".data := by decide
  constructor
  · intro hd h1 h2
    simp only [delete_field, hkey, hfield, hbz, hd, Option.isSome_none, Option.isSome_some,
      Bool.false_eq_true, Bool.and_true, if_false, if_true, Option.getD_some]
    rw [if_pos ⟨h1, h2⟩]
    by_cases hn1 : (splitNotes v).eraseIdx (toNatStr field - 1) = []
    · rw [if_neg (not_not_intro hn1)]
      constructor
      · intro _
        rw [notesValueAt, dget_dset_self, Option.getD_some,
          dget_dset_ne _ hlu, dget_ddel_self hnodup]
      · intro w hw
        rw [notesValueAt, dget_dset_self, Option.getD_some,
          dget_dset_ne _ hlu, dget_ddel_self hnodup] at hw
        exact absurd hw (by simp)
    · rw [if_pos hn1]
      constructor
      · intro hlen1
        exfalso
        apply hn1
        have h0 : ((splitNotes v).eraseIdx (toNatStr field - 1)).length = 0 := by
          rw [List.length_eraseIdx]
          split
          · omega
          · omega
        exact List.length_eq_zero.mp h0
      · intro w hw
        rw [notesValueAt, dget_dset_self, Option.getD_some,
          dget_dset_ne _ hlu, dget_dset_self] at hw
        simp only [Option.some_inj] at hw
        subst hw
        apply joinNotes_ne_nil hn1
        intro e he
        exact (eraseIdx_mem_ok he).1.1
  · intro hd hne hall
    simp only [delete_field, hkey, hfield, hbz, hd, Option.isSome_none, Option.isSome_some,
      Bool.false_eq_true, Bool.and_false, if_false, if_true, Option.getD_some]
    have hfil : (splitNotes v).filter (fun nn => !containsSub nn field) = [] := by
      apply List.filter_eq_nil_iff.mpr
      intro a ha
      simp [hall a ha]
    rw [hfil]
    rw [if_pos (by simpa using List.length_pos.mpr hne)]
    rw [if_neg (by simp)]
    rw [notesValueAt, dget_dset_self, Option.getD_some,
      dget_dset_ne _ hlu, dget_ddel_self hnodup]


theorem claim8_witness :
    notesValueAt (delete_field [("u".data, [("备注".data, "a".data)])]
      "u".data "1".data "T".data).store "u".data = none ∧
    notesValueAt (delete_field [("u".data, [("备注".data, "xy；zy".data)])]
      "u".data "y".data "T".data).store "u".data = none :=
  ⟨(claim8_prop [("u".data, [("备注".data, "a".data)])] "u".data "1".data "T".data
      [("备注".data, "a".data)] "a".data (by decide) (by decide) (by decide) (by decide)).1
      (by decide) (by decide) (by decide) |>.1 (by decide),
    (claim8_prop [("u".data, [("备注".data, "xy；zy".data)])] "u".data "y".data "T".data
      [("备注".data, "xy；zy".data)] "xy；zy".data (by decide) (by decide) (by decide)
      (by decide)).2 (by decide) (by decide) (by decide)⟩

/-! ### Claim C5: idempotence of note resubmission -/

theorem parseNotes_mem_ok {ex e : Str} (h : e ∈ parseNotes ex) :
    EntryOk e ∧ pyStrip e = e := by
  rw [parseNotes] at h
  split at h
  · exact splitNotes_mem_ok h
  · simp at h

theorem mergeNotes_stable (maxN : Nat) (ex value1 : Str)
    (hfix : ∀ e ∈ newNotesOf value1, pyStrip e = e)
    (hcap : (dedupAppend (parseNotes ex) (newNotesOf value1)).length ≤ maxN) :
    mergeNotes maxN (joinNotes (mergeNotes maxN ex value1)) value1
      = mergeNotes maxN ex value1 := by
  have hL1 : mergeNotes maxN ex value1
      = dedupAppend (parseNotes ex) (newNotesOf value1) := capLast_of_le hcap
  have hok : ∀ x ∈ dedupAppend (parseNotes ex) (newNotesOf value1),
      EntryOk x ∧ pyStrip x = x := by
    intro x hx
    rcases dedupAppend_mem hx with h | h
    · exact parseNotes_mem_ok h
    · exact ⟨(newNotesOf_mem_ok h).1, hfix x h⟩
  rw [hL1]
  have hparse : parseNotes (joinNotes (dedupAppend (parseNotes ex) (newNotesOf value1)))
      = dedupAppend (parseNotes ex) (newNotesOf value1) := by
    by_cases hD : dedupAppend (parseNotes ex) (newNotesOf value1) = []
    · rw [hD]
      rfl
    · rw [parseNotes, if_pos (joinNotes_ne_nil hD fun e he => (hok e he).1.1)]
      exact splitNotes_joinNotes_fixed (fun e he => (hok e he).1) fun e he => (hok e he).2
  rw [mergeNotes, hparse,
    dedupAppend_eq_of_subset fun n hn => mem_dedupAppend_right hn]
  exact capLast_of_le hcap

theorem notesValue_after_update (allowed : List Str) (maxN : Nat) (store : Store)
    (key value now : Str) (hallow : "备注".data ∈ allowed) :
    notesValueAt (update_field allowed maxN store key "备注".data value now).store key
      = some (joinNotes (mergeNotes maxN
          ((dget ((dget store key).getD []) "备注".data).getD []) (pyStrip value))) := by
  have hlu : ("备注".data : Str) ≠ "_last_updated".data := by decide
  simp only [update_field, if_pos hallow, if_pos rfl]
  rcases hk : dget store key with _ | q
  · simp only [Option.isSome_none, Bool.false_eq_true, if_false, Option.getD_none]
    have hp : (dget (dset store key []) key).getD ([] : Profile) = [] := by
      rw [dget_dset_self]
      rfl
    rw [hp, notesValueAt, dget_dset_self, Option.getD_some, dget_dset_ne _ hlu,
      dget_dset_self]
    simp [hk]
  · simp only [Option.isSome_some, if_true, Option.getD_some]
    rw [notesValueAt, dget_dset_self, Option.getD_some, dget_dset_ne _ hlu,
      dget_dset_self]
    simp [hk]

/-- C5 (amended): submitting the same note text twice in a row yields the
same stored notes value as submitting it once, provided every incoming
entry (trimmed then truncated to 20 characters) is itself trim-fixed and
the first submission's merged list fits within the cap so that no incoming
entry is evicted. In general the claim fails: truncation can leave a
trailing-whitespace entry that re-trims differently on the next parse, and
an entry evicted by the cap is re-appended by the second submission. The
within-call duplicate test is exact string equality. -/
theorem claim5_prop (allowed : List Str) (maxN : Nat) (store : Store)
    (key value now now' : Str)
    (hfix : ∀ e ∈ newNotesOf (pyStrip value), pyStrip e = e)
    (hcap : (dedupAppend
        (parseNotes ((dget ((dget store key).getD []) "备注".data).getD []))
        (newNotesOf (pyStrip value))).length ≤ maxN) :
    notesValueAt (update_field allowed maxN
        (update_field allowed maxN store key "备注".data value now).store
        key "备注".data value now').store key
      = notesValueAt (update_field allowed maxN store key "备注".data value now).store key := by
  by_cases hallow : "备注".data ∈ allowed
  · have h1 := notesValue_after_update allowed maxN store key value now hallow
    have h2 := notesValue_after_update allowed maxN
      (update_field allowed maxN store key "备注".data value now).store key value now' hallow
    rw [h1, h2]
    have hex : ((dget ((dget (update_field allowed maxN store key "备注".data value
        now).store key).getD []) "备注".data).getD [])
        = joinNotes (mergeNotes maxN
            ((dget ((dget store key).getD []) "备注".data).getD []) (pyStrip value)) := by
      show (notesValueAt (update_field allowed maxN store key "备注".data value now).store
        key).getD [] = _
      rw [h1]
      rfl
    rw [hex, mergeNotes_stable maxN _ _ hfix hcap]
  · simp only [update_field, if_neg hallow]


/-- C5 counterexample: with the default cap of five, submitting six notes
twice does not equal submitting them once - the first entry is evicted by
the cap and re-appended, rotating the list. -/
theorem claim5_counterexample :
    notesValueAt ((update_field ["备注".data] 5
        (update_field ["备注".data] 5 [] "u".data "备注".data
          "1；2；3；4；5；6".data "T".data).store
        "u".data "备注".data "1；2；3；4；5；6".data "T".data).store) "u".data
    ≠ notesValueAt ((update_field ["备注".data] 5 [] "u".data "备注".data
        "1；2；3；4；5；6".data "T".data).store) "u".data := by decide

theorem claim5_witness :
    (∀ e ∈ newNotesOf (pyStrip "爱笑；话多".data), pyStrip e = e) ∧
    (dedupAppend
        (parseNotes ((dget ((dget ([] : Store) "u".data).getD []) "备注".data).getD []))
        (newNotesOf (pyStrip "爱笑；话多".data))).length ≤ 5 ∧
    notesValueAt (update_field ["备注".data] 5
        (update_field ["备注".data] 5 [] "u".data "备注".data "爱笑；话多".data "T".data).store
        "u".data "备注".data "爱笑；话多".data "T2".data).store "u".data
      = notesValueAt (update_field ["备注".data] 5 [] "u".data "备注".data
          "爱笑；话多".data "T".data).store "u".data :=
  ⟨by decide, by decide,
    claim5_prop ["备注".data] 5 [] "u".data "爱笑；话多".data "T".data "T2".data
      (by decide) (by decide)⟩

/-! ### Claim C2: the application order of one delete block targets -/

theorem delete_exact_eq (store : Store) (key now : Str) (q : Profile) (x val : Str)
    (hq : dget store key = some q) (hx : dget q x = some val) :
    (delete_field store key x now).store
      = dset store key (dset (ddel q x) "_last_updated".data now) := by
  simp only [delete_field, hq, hx, Option.isSome_some, if_true]

theorem delete_numeric_eq (store : Store) (key now : Str) (q : Profile) (v : Str)
    (nstr : Str) (hq : dget store key = some q)
    (hfield : dget q nstr = none) (hbz : dget q "备注".data = some v)
    (hd : isDigitStr nstr = true)
    (hrange : 1 ≤ toNatStr nstr ∧ toNatStr nstr ≤ (splitNotes v).length) :
    (delete_field store key nstr now).store = dset store key
      (dset (if (splitNotes v).eraseIdx (toNatStr nstr - 1) ≠ []
             then dset q "备注".data (joinNotes ((splitNotes v).eraseIdx (toNatStr nstr - 1)))
             else ddel q "备注".data) "_last_updated".data now) := by
  simp only [delete_field, hq, hfield, hbz, hd, Option.isSome_none, Option.isSome_some,
    Bool.false_eq_true, Bool.and_true, if_false, if_true, Option.getD_some]
  rw [if_pos hrange]

theorem c2_fold (store : Store) (key now : Str) (p : Profile) (nick v : Str)
    (e1 e2 : Str) (rest : List Str)
    (hnodup : (p.map Prod.fst).Nodup)
    (hkey : dget store key = some p)
    (hnick : dget p "昵称".data = some nick)
    (hbz : dget p "备注".data = some v)
    (h1 : dget p "1".data = none) (h2 : dget p "2".data = none)
    (hsplit : splitNotes v = e1 :: e2 :: rest) :
    dget ((dget (List.foldl (fun st f => (delete_field st key f now).store) store
        ["昵称".data, "2".data, "1".data]) key).getD []) "昵称".data = none ∧
    notesValueAt (List.foldl (fun st f => (delete_field st key f now).store) store
        ["昵称".data, "2".data, "1".data]) key
      = (if rest = [] then none else some (joinNotes rest)) := by
  have hbz_lu : ("备注".data : Str) ≠ "_last_updated".data := by decide
  have hbz_nk : ("备注".data : Str) ≠ "昵称".data := by decide
  have hnk_lu : ("昵称".data : Str) ≠ "_last_updated".data := by decide
  have hnk_bz : ("昵称".data : Str) ≠ "备注".data := by decide
  have h1_lu : ("1".data : Str) ≠ "_last_updated".data := by decide
  have h1_bz : ("1".data : Str) ≠ "备注".data := by decide
  have h1_nk : ("1".data : Str) ≠ "昵称".data := by decide
  have h2_lu : ("2".data : Str) ≠ "_last_updated".data := by decide
  have h2_nk : ("2".data : Str) ≠ "昵称".data := by decide
  simp only [List.foldl_cons, List.foldl_nil]
  -- step 1: exact-field delete of 昵称
  rw [delete_exact_eq store key now p "昵称".data nick hkey hnick]
  -- the profile after step 1
  have hp1get : dget (dset store key (dset (ddel p "昵称".data) "_last_updated".data now))
      key = some (dset (ddel p "昵称".data) "_last_updated".data now) := dget_dset_self _ _ _
  have hp1_2 : dget (dset (ddel p "昵称".data) "_last_updated".data now) "2".data = none := by
    rw [dget_dset_ne _ h2_lu, dget_ddel_ne _ h2_nk, h2]
  have hp1_bz : dget (dset (ddel p "昵称".data) "_last_updated".data now) "备注".data
      = some v := by
    rw [dget_dset_ne _ hbz_lu, dget_ddel_ne _ hbz_nk, hbz]
  have hlen : 2 ≤ (splitNotes v).length := by
    rw [hsplit]
    simp
  -- step 2: numeric delete of index 2
  rw [delete_numeric_eq _ key now _ v "2".data hp1get hp1_2 hp1_bz (by decide)
    (by refine ⟨by decide, ?_⟩; rw [show toNatStr "2".data = 2 from rfl]; exact hlen)]
  rw [show toNatStr "2".data = 2 from rfl, hsplit]
  rw [show (e1 :: e2 :: rest).eraseIdx (2 - 1) = e1 :: rest from rfl]
  rw [if_pos (by simp)]
  -- entries of splitNotes v
  have hokv : ∀ x ∈ e1 :: e2 :: rest, EntryOk x ∧ pyStrip x = x := by
    intro x hx
    exact splitNotes_mem_ok (by rw [hsplit]; exact hx)
  have hsplit2 : splitNotes (joinNotes (e1 :: rest)) = e1 :: rest := by
    apply splitNotes_joinNotes_fixed
    · intro e he
      rcases List.mem_cons.mp he with h | h
      · exact (hokv e (by simp [h])).1
      · exact (hokv e (by simp [h])).1
    · intro e he
      rcases List.mem_cons.mp he with h | h
      · exact (hokv e (by simp [h])).2
      · exact (hokv e (by simp [h])).2
  -- the profile after step 2
  have hp2get : ∀ q2 : Profile, dget (dset
      (dset store key (dset (ddel p "昵称".data) "_last_updated".data now)) key q2) key
      = some q2 := fun q2 => dget_dset_self _ _ _
  have hp2_1 : dget (dset (dset (dset (ddel p "昵称".data) "_last_updated".data now)
      "备注".data (joinNotes (e1 :: rest))) "_last_updated".data now) "1".data = none := by
    rw [dget_dset_ne _ h1_lu, dget_dset_ne _ h1_bz, dget_dset_ne _ h1_lu,
      dget_ddel_ne _ h1_nk, h1]
  have hp2_bz : dget (dset (dset (dset (ddel p "昵称".data) "_last_updated".data now)
      "备注".data (joinNotes (e1 :: rest))) "_last_updated".data now) "备注".data
      = some (joinNotes (e1 :: rest)) := by
    rw [dget_dset_ne _ hbz_lu, dget_dset_self]
  -- step 3: numeric delete of index 1
  rw [delete_numeric_eq _ key now _ (joinNotes (e1 :: rest)) "1".data (hp2get _)
    hp2_1 hp2_bz (by decide)
    (by
      refine ⟨by decide, ?_⟩
      rw [show toNatStr "1".data = 1 from rfl, hsplit2]
      simp)]
  rw [show toNatStr "1".data = 1 from rfl, hsplit2]
  rw [show (e1 :: rest).eraseIdx (1 - 1) = rest from rfl]
  -- nodup chains
  have hnodup1 : ((dset (ddel p "昵称".data) "_last_updated".data now).map
      Prod.fst).Nodup := nodup_keys_dset (nodup_keys_ddel hnodup _) _ _
  have hnodup2 : ((dset (dset (dset (ddel p "昵称".data) "_last_updated".data now)
      "备注".data (joinNotes (e1 :: rest))) "_last_updated".data now).map
      Prod.fst).Nodup := nodup_keys_dset (nodup_keys_dset hnodup1 _ _) _ _
  have hnick_gone2 : dget (dset (dset (dset (ddel p "昵称".data) "_last_updated".data now)
      "备注".data (joinNotes (e1 :: rest))) "_last_updated".data now) "昵称".data
      = none := by
    rw [dget_dset_ne _ hnk_lu, dget_dset_ne _ hnk_bz, dget_dset_ne _ hnk_lu,
      dget_ddel_self hnodup]
  by_cases hrest : rest = []
  · rw [if_neg (not_not_intro hrest)]
    constructor
    · rw [dget_dset_self, Option.getD_some, dget_dset_ne _ hnk_lu,
        dget_ddel_ne _ hnk_bz, hnick_gone2]
    · rw [notesValueAt, dget_dset_self, Option.getD_some, dget_dset_ne _ hbz_lu,
        dget_ddel_self hnodup2, if_pos hrest]
  · rw [if_pos hrest]
    constructor
    · rw [dget_dset_self, Option.getD_some, dget_dset_ne _ hnk_lu,
        dget_dset_ne _ hnk_bz, hnick_gone2]
    · rw [notesValueAt, dget_dset_self, Option.getD_some, dget_dset_ne _ hbz_lu,
        dget_dset_self, if_neg hrest]


/-- C2 counterexample: the code applies non-numeric targets before the
numeric ones, not after; with notes a；b and the targets 2 and a submitted
together, the fuzzy delete of a runs first, after which index 2 is out of
range, leaving b - whereas the order the claim asserts would delete entry
2 first and then the note containing a, emptying the notes. The two
resulting stores differ. -/
theorem claim2_counterexample :
    processDeleteTargets [("u".data, [("备注".data, "a；b".data)])] "u".data "T".data
        ["2".data, "a".data]
      ≠ processDeleteTargetsSpec [("u".data, [("备注".data, "a；b".data)])] "u".data "T".data
        ["2".data, "a".data] := by decide

/-- C2 (amended): one delete block's targets are applied with the
non-numeric targets first, in submission order, and the purely numeric
targets afterwards in descending numeric order, so that no numeric
deletion shifts the index of a not-yet-processed numeric target; in
particular, for the targets 2, 昵称 and 1 submitted together in any order
against a profile whose notes split into at least two entries, the result
always removes the 昵称 field and the first two note entries. -/
theorem claim2_prop (store : Store) (key now : Str) (p : Profile) (nick v : Str)
    (e1 e2 : Str) (rest : List Str)
    (hnodup : (p.map Prod.fst).Nodup)
    (hkey : dget store key = some p)
    (hnick : dget p "昵称".data = some nick)
    (hbz : dget p "备注".data = some v)
    (h1 : dget p "1".data = none) (h2 : dget p "2".data = none)
    (hsplit : splitNotes v = e1 :: e2 :: rest)
    (l : List Str)
    (hl : l = ["2".data, "昵称".data, "1".data] ∨ l = ["2".data, "1".data, "昵称".data] ∨
          l = ["昵称".data, "2".data, "1".data] ∨ l = ["昵称".data, "1".data, "2".data] ∨
          l = ["1".data, "2".data, "昵称".data] ∨ l = ["1".data, "昵称".data, "2".data]) :
    dget ((dget (processDeleteTargets store key now l) key).getD []) "昵称".data = none ∧
    notesValueAt (processDeleteTargets store key now l) key
      = (if rest = [] then none else some (joinNotes rest)) := by
  have horder : deleteOrder l = ["昵称".data, "2".data, "1".data] := by
    rcases hl with rfl | rfl | rfl | rfl | rfl | rfl <;> decide
  rw [processDeleteTargets, horder]
  exact c2_fold store key now p nick v e1 e2 rest hnodup hkey hnick hbz h1 h2 hsplit

theorem claim2_witness :
    dget ((dget (processDeleteTargets
        [("u".data, [("昵称".data, "X".data), ("备注".data, "a；b；c".data)])]
        "u".data "T".data ["2".data, "昵称".data, "1".data]) "u".data).getD [])
      "昵称".data = none ∧
    notesValueAt (processDeleteTargets
        [("u".data, [("昵称".data, "X".data), ("备注".data, "a；b；c".data)])]
        "u".data "T".data ["2".data, "昵称".data, "1".data]) "u".data
      = some "c".data := by
  have h := claim2_prop
    [("u".data, [("昵称".data, "X".data), ("备注".data, "a；b；c".data)])]
    "u".data "T".data [("昵称".data, "X".data), ("备注".data, "a；b；c".data)]
    "X".data "a；b；c".data "a".data "b".data ["c".data]
    (by decide) (by decide) (by decide) (by decide) (by decide) (by decide) (by decide)
    ["2".data, "昵称".data, "1".data] (Or.inl rfl)
  exact ⟨h.1, by simpa using h.2⟩

/-! ### Claim C3: the reachable-store notes invariant -/

theorem entryOk_pyStrip {y : Str} (h : EntryOk y) : EntryOk (pyStrip y) :=
  ⟨pyStrip_ne_nil_of_entryOk h, fun c hc => h.2.1 c (pyStrip_subset hc),
    fun _ hc => pyStrip_head hc⟩

theorem splitNotes_of_good {exv : Str} {l : List Str} (hjoin : exv = joinNotes l)
    (hok : ∀ x ∈ l, EntryOk x ∧ x.length ≤ 20) :
    (splitNotes exv).length = l.length ∧
    ∀ x ∈ splitNotes exv, EntryOk x ∧ x.length ≤ 20 := by
  subst hjoin
  rw [splitNotes_joinNotes fun x hx => (hok x hx).1]
  refine ⟨List.length_map _ _, ?_⟩
  intro x hx
  rw [List.mem_map] at hx
  obtain ⟨y, hy, rfl⟩ := hx
  exact ⟨entryOk_pyStrip (hok y hy).1, le_trans (pyStrip_length_le y) (hok y hy).2⟩

theorem notesInv_update (allowed : List Str) {maxN : Nat} (hmax : 1 ≤ maxN) {st : Store}
    (h : NotesInv maxN st) (k f v now : Str) :
    NotesInv maxN (update_field allowed maxN st k f v now).store := by
  by_cases hallow : f ∈ allowed
  · simp only [update_field, if_pos hallow]
    have hprof : ∀ fp2 ∈ ((dget (if (dget st k).isSome then st else dset st k []) k).getD []
        : Profile), fp2.1 = "备注".data →
        ∃ l : List Str, fp2.2 = joinNotes l ∧ l.length ≤ maxN ∧
          ∀ x ∈ l, EntryOk x ∧ x.length ≤ 20 := by
      intro fp2 hfp2 hb
      rcases hq : dget (if (dget st k).isSome then st else dset st k []) k with _ | q
      · rw [hq] at hfp2
        simp at hfp2
      · rw [hq] at hfp2
        simp only [Option.getD_some] at hfp2
        have hqmem := dget_mem hq
        by_cases hk : (dget st k).isSome
        · rw [if_pos hk] at hqmem
          exact h (k, q) hqmem fp2 hfp2 hb
        · rw [if_neg hk] at hqmem
          rcases mem_dset hqmem with hm | hm
          · exact h (k, q) hm fp2 hfp2 hb
          · have hq0 : q = ([] : Profile) := congrArg Prod.snd hm
            rw [hq0] at hfp2
            simp at hfp2
    intro e he fp hfp hbzeq
    rcases mem_dset he with he1 | he1
    · by_cases hk : (dget st k).isSome
      · rw [if_pos hk] at he1
        exact h e he1 fp hfp hbzeq
      · rw [if_neg hk] at he1
        rcases mem_dset he1 with he2 | he2
        · exact h e he2 fp hfp hbzeq
        · subst he2
          simp at hfp
    · subst he1
      rcases mem_dset hfp with hfp1 | hfp1
      · rcases mem_dset hfp1 with hfp2 | hfp2
        · exact hprof fp hfp2 hbzeq
        · subst hfp2
          simp only at hbzeq
          rw [if_pos hbzeq]
          refine ⟨mergeNotes maxN
            ((dget ((dget (if (dget st k).isSome then st else dset st k []) k).getD [])
              "备注".data).getD []) (pyStrip v), rfl, capLast_length hmax _, ?_⟩
          intro x hx
          have hx' := (capLast_sublist _ _).subset hx
          rcases dedupAppend_mem hx' with hxx | hxx
          · rcases hbzv : dget ((dget (if (dget st k).isSome then st
                else dset st k []) k).getD []) "备注".data with _ | exv
            · rw [hbzv] at hxx
              simp [parseNotes] at hxx
            · rw [hbzv] at hxx
              simp only [Option.getD_some] at hxx
              obtain ⟨lold, hje, hlen, hgood⟩ :=
                hprof ("备注".data, exv) (dget_mem hbzv) rfl
              by_cases hexv : exv = []
              · rw [hexv] at hxx
                simp [parseNotes] at hxx
              · rw [parseNotes, if_pos hexv] at hxx
                exact (splitNotes_of_good hje hgood).2 x hxx
          · exact newNotesOf_mem_ok hxx
      · subst hfp1
        exact absurd (show ("_last_updated".data : Str) = "备注".data from hbzeq)
          (by decide)
  · simp only [update_field, if_neg hallow]
    exact h

theorem notesInv_delete {maxN : Nat} {st : Store} (h : NotesInv maxN st)
    (k f now : Str) : NotesInv maxN (delete_field st k f now).store := by
  rcases hk : dget st k with _ | q
  · simp only [delete_field, hk]
    exact h
  · simp only [delete_field, hk]
    by_cases hf : (dget q f).isSome = true
    · rw [if_pos hf]
      intro e he fp hfp hb
      rcases mem_dset he with he1 | he1
      · exact h e he1 fp hfp hb
      · subst he1
        rcases mem_dset hfp with hfp1 | hfp1
        · exact h (k, q) (dget_mem hk) fp (mem_ddel hfp1) hb
        · subst hfp1
          exact absurd (show ("_last_updated".data : Str) = "备注".data from hb)
            (by decide)
    · rw [if_neg hf]
      by_cases hg2 : ((dget q "备注".data).isSome && isDigitStr f) = true
      · rw [if_pos hg2]
        rcases hbzv : dget q "备注".data with _ | exv
        · rw [hbzv] at hg2
          simp at hg2
        · simp only [hbzv, Option.getD_some]
          obtain ⟨lold, hje, hlen, hgood⟩ :=
            h (k, q) (dget_mem hk) ("备注".data, exv) (dget_mem hbzv) rfl
          have hsp := splitNotes_of_good hje hgood
          by_cases hrange : 1 ≤ toNatStr f ∧ toNatStr f ≤ (splitNotes exv).length
          · rw [if_pos hrange]
            intro e he fp hfp hb
            rcases mem_dset he with he1 | he1
            · exact h e he1 fp hfp hb
            · subst he1
              rcases mem_dset hfp with hfp1 | hfp1
              · by_cases hn1 : (splitNotes exv).eraseIdx (toNatStr f - 1) ≠ []
                · rw [if_pos hn1] at hfp1
                  rcases mem_dset hfp1 with hfp2 | hfp2
                  · exact h (k, q) (dget_mem hk) fp hfp2 hb
                  · subst hfp2
                    refine ⟨(splitNotes exv).eraseIdx (toNatStr f - 1), rfl, ?_, ?_⟩
                    · calc ((splitNotes exv).eraseIdx (toNatStr f - 1)).length
                          ≤ (splitNotes exv).length :=
                            (List.eraseIdx_sublist _ _).length_le
                        _ = lold.length := hsp.1
                        _ ≤ maxN := hlen
                    · intro x hx
                      exact hsp.2 x ((List.eraseIdx_sublist _ _).subset hx)
                · rw [if_neg hn1] at hfp1
                  exact h (k, q) (dget_mem hk) fp (mem_ddel hfp1) hb
              · subst hfp1
                exact absurd (show ("_last_updated".data : Str) = "备注".data from hb)
                  (by decide)
          · rw [if_neg hrange]
            exact h
      · rw [if_neg hg2]
        by_cases hg3 : (dget q "备注".data).isSome = true
        · rw [if_pos hg3]
          rcases hbzv : dget q "备注".data with _ | exv
          · rw [hbzv] at hg3
            simp at hg3
          · simp only [hbzv, Option.getD_some]
            obtain ⟨lold, hje, hlen, hgood⟩ :=
              h (k, q) (dget_mem hk) ("备注".data, exv) (dget_mem hbzv) rfl
            have hsp := splitNotes_of_good hje hgood
            by_cases hlt : ((splitNotes exv).filter fun nn => !containsSub nn f).length
                < (splitNotes exv).length
            · rw [if_pos hlt]
              intro e he fp hfp hb
              rcases mem_dset he with he1 | he1
              · exact h e he1 fp hfp hb
              · subst he1
                rcases mem_dset hfp with hfp1 | hfp1
                · by_cases hn1 : ((splitNotes exv).filter fun nn => !containsSub nn f) ≠ []
                  · rw [if_pos hn1] at hfp1
                    rcases mem_dset hfp1 with hfp2 | hfp2
                    · exact h (k, q) (dget_mem hk) fp hfp2 hb
                    · subst hfp2
                      refine ⟨(splitNotes exv).filter fun nn => !containsSub nn f,
                        rfl, ?_, ?_⟩
                      · calc ((splitNotes exv).filter fun nn => !containsSub nn f).length
                            ≤ (splitNotes exv).length :=
                              (List.filter_sublist _).length_le
                          _ = lold.length := hsp.1
                          _ ≤ maxN := hlen
                      · intro x hx
                        exact hsp.2 x ((List.filter_sublist _).subset hx)
                  · rw [if_neg hn1] at hfp1
                    exact h (k, q) (dget_mem hk) fp (mem_ddel hfp1) hb
                · subst hfp1
                  exact absurd (show ("_last_updated".data : Str) = "备注".data from hb)
                    (by decide)
            · rw [if_neg hlt]
              exact h
        · rw [if_neg hg3]
          exact h

/-- C3 (amended): in every store reachable from the empty store by
update_field and delete_field operations, and for a configured cap of at
least one, every stored notes value is the join of at most maxNotesCount
entries, each non-empty, free of the note delimiters, not starting with
whitespace, and at most 20 characters long; when an update exceeds the cap
the oldest entries are dropped from the front. The claim's stronger
invariant - fully trimmed entries with no duplicates after trimming - does
not hold (truncation to 20 characters can leave trailing whitespace, and
such entries re-parse into duplicates). -/
theorem claim3_prop {allowed : List Str} {maxN : Nat} {st : Store}
    (hmax : 1 ≤ maxN) (hreach : Reachable allowed maxN st) : NotesInv maxN st := by
  induction hreach with
  | empty =>
    intro e he fp hfp hb
    simp at he
  | update k f v now hst ih => exact notesInv_update allowed hmax ih k f v now
  | del k f now hst ih => exact notesInv_delete ih k f now

/-- The incoming value whose first note truncates to an entry with a
trailing space. -/
def c3Value : Str := "aaaaaaaaaaaaaaaaaaa x；aaaaaaaaaaaaaaaaaaa".data

/-- The store after one update from empty. -/
def c3Store : Store :=
  (update_field ["备注".data] 5 [] "u".data "备注".data c3Value "T".data).store

/-- The notes value that update stores. -/
def c3Stored : Str := "aaaaaaaaaaaaaaaaaaa ；aaaaaaaaaaaaaaaaaaa".data

/-- C3 counterexample: one update from the empty store (submitting a note
longer than 20 characters next to its 20-character truncation's trim)
stores a notes value that is not the join of any list of trimmed,
non-empty, at-most-20-character entries without duplicates after trimming
- so the claim's invariant fails on a reachable store. -/
theorem claim3_counterexample :
    Reachable ["备注".data] 5 c3Store ∧ ¬ claimNotesInv 5 c3Store := by
  constructor
  · exact Reachable.update "u".data "备注".data c3Value "T".data Reachable.empty
  · intro h
    have hkey : dget c3Store "u".data
        = some [("备注".data, c3Stored), ("_last_updated".data, "T".data)] := by decide
    have hbz : dget [("备注".data, c3Stored), ("_last_updated".data, "T".data)]
        "备注".data = some c3Stored := by decide
    obtain ⟨l, hjoin, hlen, hgood, hpair⟩ := h "u".data _ hkey _ hbz
    rcases l with _ | ⟨x1, l⟩
    · exact absurd hjoin (by decide)
    · rcases l with _ | ⟨x2, l⟩
      · have hx1 := (hgood x1 (by simp)).2.2
        rw [show joinNotes [x1] = x1 from rfl] at hjoin
        rw [← hjoin] at hx1
        exact absurd hx1 (by decide)
      · rcases l with _ | ⟨x3, l⟩
        · have hcount : c3Stored.count '；' = 1 := by decide
          rw [hjoin, count_joinNotes_pair] at hcount
          have hc1 : x1.count '；' = 0 := by omega
          have hnotin : ∀ c ∈ x1, c ≠ '；' := by
            intro c hc hceq
            subst hceq
            rw [List.count_eq_zero] at hc1
            exact hc1 hc
          have hx1eq : x1 = c3Stored.takeWhile (fun c => !decide (c = '；')) := by
            rw [hjoin, show joinNotes [x1, x2] = x1 ++ '；' :: x2 from by
              rw [joinNotes_cons x1 (by simp)]; rfl]
            exact (takeWhile_no_delim hnotin x2).symm
          have hfix := (hgood x1 (by simp)).1
          rw [hx1eq] at hfix
          rw [show c3Stored.takeWhile (fun c => !decide (c = '；'))
              = "aaaaaaaaaaaaaaaaaaa ".data from by decide] at hfix
          exact absurd hfix (by decide)
        · have hge := count_joinNotes_ge (l := x1 :: x2 :: x3 :: l)
          rw [← hjoin] at hge
          rw [show c3Stored.count '；' = 1 from by decide] at hge
          simp only [List.length_cons] at hge
          omega



theorem claim3_witness : 1 ≤ 5 ∧ NotesInv 5 [] :=
  ⟨by decide, claim3_prop (by decide)
    (Reachable.empty : Reachable ["备注".data] 5 [])⟩


end SoulMap
